import Mathlib

/-!
Verification of `src/ranks.py` (VALORANT team average rank).

Shallow embedding conventions:
* Python `dict` access that can raise `KeyError`, `list.index` that can raise
  `ValueError`, and `int(None)` that can raise `TypeError` are modelled with
  `Option` (`none` = the exception).
* `raise ValueError(msg)` in the rank functions is modelled by
  `Except RankError`; the `RankError` constructors carry exactly the data the
  Python message interpolates (the original raw token, the Russian base name,
  the offending tier).  `RankError.internal` stands for any non-`ValueError`
  Python exception (`KeyError` / `TypeError`), which the proofs show is
  unreachable on the paths the program takes.
* `float` arithmetic (`sum(values)/5.0`, `int(x + 0.5)`) is modelled over `ℚ`;
  every reachable average is a fraction with denominator 5, exactly
  representable, and `int` truncation toward zero is `pyTrunc`.
* `str.lower` is modelled on the alphabet the program uses (ASCII letters and
  the Russian alphabet, including Ё) by the table `LOWER_MAP`; other characters
  are left unchanged.
* the regex `([123])$` is modelled as a check on the last character of the
  (already stripped) token.
-/

namespace Ranks

def ORDER : List String :=
  ["iron", "bronze", "silver", "gold", "platinum", "diamond", "ascendant", "immortal"]

def RU_NAME : List (String × String) :=
  [("iron", "Железо"), ("bronze", "Бронза"), ("silver", "Серебро"),
   ("gold", "Золото"), ("platinum", "Платина"), ("diamond", "Алмаз"),
   ("ascendant", "Асцендант"), ("immortal", "Иммортал"), ("radiant", "Радиант")]

def MAX_WITHOUT_RADIANT : Int := 24

def RADIANT_VALUE : Int := 25

def DEFAULT_INCLUDE_RADIANT : Bool := true

/-- Flattening `ALIAS_TO_KEY` of the `ALIASES` dict (alias → family key).
All aliases are pairwise distinct, so the iteration order of the Python sets
does not affect lookups. -/
def ALIAS_TO_KEY : List (String × String) :=
  [("железо", "iron"), ("iron", "iron"), ("ж", "iron"),
   ("бронза", "bronze"), ("bronze", "bronze"), ("б", "bronze"),
   ("серебро", "silver"), ("silver", "silver"), ("с", "silver"),
   ("золото", "gold"), ("голда", "gold"), ("gold", "gold"), ("г", "gold"),
   ("платина", "platinum"), ("platinum", "platinum"), ("п", "platinum"), ("плат", "platinum"),
   ("алмаз", "diamond"), ("даймонд", "diamond"), ("diamond", "diamond"), ("д", "diamond"),
   ("асцендант", "ascendant"), ("аскедант", "ascendant"), ("асцедант", "ascendant"),
   ("ascendant", "ascendant"), ("а", "ascendant"), ("аск", "ascendant"),
   ("асц", "ascendant"), ("asc", "ascendant"),
   ("иммортал", "immortal"), ("immortal", "immortal"), ("иммо", "immortal"),
   ("им", "immortal"), ("и", "immortal"),
   ("радиант", "radiant"), ("radiant", "radiant"), ("рад", "radiant"), ("r", "radiant")]

/-- Case table for `str.lower` on the program's alphabet: ASCII `A`–`Z` and
Cyrillic `А`–`Я` plus `Ё`. -/
def LOWER_MAP : List (Char × Char) :=
  [('A', 'a'), ('B', 'b'), ('C', 'c'), ('D', 'd'), ('E', 'e'), ('F', 'f'),
   ('G', 'g'), ('H', 'h'), ('I', 'i'), ('J', 'j'), ('K', 'k'), ('L', 'l'),
   ('M', 'm'), ('N', 'n'), ('O', 'o'), ('P', 'p'), ('Q', 'q'), ('R', 'r'),
   ('S', 's'), ('T', 't'), ('U', 'u'), ('V', 'v'), ('W', 'w'), ('X', 'x'),
   ('Y', 'y'), ('Z', 'z'),
   ('А', 'а'), ('Б', 'б'), ('В', 'в'), ('Г', 'г'), ('Д', 'д'), ('Е', 'е'),
   ('Ж', 'ж'), ('З', 'з'), ('И', 'и'), ('Й', 'й'), ('К', 'к'), ('Л', 'л'),
   ('М', 'м'), ('Н', 'н'), ('О', 'о'), ('П', 'п'), ('Р', 'р'), ('С', 'с'),
   ('Т', 'т'), ('У', 'у'), ('Ф', 'ф'), ('Х', 'х'), ('Ц', 'ц'), ('Ч', 'ч'),
   ('Ш', 'ш'), ('Щ', 'щ'), ('Ъ', 'ъ'), ('Ы', 'ы'), ('Ь', 'ь'), ('Э', 'э'),
   ('Ю', 'ю'), ('Я', 'я'), ('Ё', 'ё')]

def pyLower (c : Char) : Char := (List.lookup c LOWER_MAP).getD c

/-- The `.replace("ё", "е")` step (applied after lowering). -/
def yoFold (c : Char) : Char := if c = 'ё' then 'е' else c

/-- Characters removed by `re.sub(r"[ \t\-\._]+", "", s)`. -/
def isRm (c : Char) : Bool := c = ' ' ∨ c = '\t' ∨ c = '-' ∨ c = '_' ∨ c = '.'

/-- Whitespace for `str.strip` (ASCII whitespace). -/
def isWs (c : Char) : Bool :=
  c = ' ' ∨ c = '\t' ∨ c = '\n' ∨ c = '\r' ∨ c = '\x0b' ∨ c = '\x0c'

def stripChars (l : List Char) : List Char :=
  ((l.dropWhile isWs).reverse.dropWhile isWs).reverse

/-- Normalizer `_clean_token`: strip, lower, fold `ё`→`е`, drop spaces/tabs/hyphens/underscores/periods. -/
def _clean_token (s : String) : String :=
  String.mk (((((stripChars s.data).map pyLower).map yoFold).filter (fun c => !(isRm c))))

inductive RankError where
  | wrongCount (got : Nat)
  | unrecognized (original : String)
  | missingSubTier (ruBase : String)
  | invalidSubTier (ruBase : String) (tier : Nat)
  | internal
  deriving DecidableEq

/-- The regex step `re.search(r"([123])$", token)`: candidate sub-tier and core. -/
def tierCore (token : String) : Option Nat × String :=
  match token.data.getLast? with
  | some c =>
      if c = '1' ∨ c = '2' ∨ c = '3' then
        (some (c.toNat - 48), String.mk token.data.dropLast)
      else (none, token)
  | none => (none, token)

/-- Token reader `_parse_rank_token`: returns `(key, tier?, ru_base)` or an error. -/
def _parse_rank_token (raw : String) : Except RankError (String × Option Nat × String) :=
  let token := _clean_token raw
  let tier := (tierCore token).1
  let core := (tierCore token).2
  match List.lookup core ALIAS_TO_KEY with
  | none => .error (.unrecognized raw)
  | some key =>
      match List.lookup key RU_NAME with
      | none => .error .internal
      | some ru_base =>
          if key ≠ "radiant" then
            match tier with
            | none => .error (.missingSubTier ru_base)
            | some t =>
                if ¬(t = 1 ∨ t = 2 ∨ t = 3) then .error (.invalidSubTier ru_base t)
                else .ok (key, some t, ru_base)
          else .ok (key, none, ru_base)

/-- Forward map `_rank_to_number`: `ORDER.index` and `int(tier)` can raise, hence `Option`. -/
def _rank_to_number (key : String) (tier : Option Nat) (include_radiant : Bool) : Option Int :=
  if key = "radiant" then
    some (if include_radiant then RADIANT_VALUE else MAX_WITHOUT_RADIANT)
  else
    match ORDER.indexOf? key, tier with
    | some i, some t => some ((i : Int) * 3 + (t : Int))
    | _, _ => none

/-- The clamp at the top of `_number_to_ru`. -/
def _nru_clamp (num : Int) (include_radiant : Bool) : Int :=
  let max_value := if include_radiant then RADIANT_VALUE else MAX_WITHOUT_RADIANT
  let n1 := if num < 1 then 1 else num
  if n1 > max_value then max_value else n1

/-- The body of `_number_to_ru` after the clamp.  The clamp guarantees
`num ≥ 1`, where Python floor division and `Nat` division agree. -/
def _nru_core (num : Int) (include_radiant : Bool) : Option String :=
  if include_radiant ∧ num = RADIANT_VALUE then List.lookup "radiant" RU_NAME
  else
    let i := (num - 1).toNat / 3
    let tier := (num - 1).toNat % 3 + 1
    match ORDER[i]? with
    | none => none
    | some key =>
        match List.lookup key RU_NAME with
        | none => none
        | some ru => some s!"{ru} {tier}"

/-- Inverse map `_number_to_ru`: clamp then map back to the Russian label. -/
def _number_to_ru (num : Int) (include_radiant : Bool) : Option String :=
  _nru_core (_nru_clamp num include_radiant) include_radiant

/-- Python `int()` truncation toward zero on rationals. -/
def pyTrunc (y : ℚ) : Int := if y < 0 then -Int.floor (-y) else Int.floor y

/-- Rounding `_round_half_up`: `int(x + 0.5)`. -/
def _round_half_up (x : ℚ) : Int := pyTrunc (x + 1 / 2)

/-- The normalized label appended to `norm_ru` per token: the `RU_NAME` entry
for Radiant (a dict access, hence `Option`), else `f"{ru_base} {tier}"`
(Python would print `None` for an absent tier, without failing). -/
def _norm_label (key : String) (tier : Option Nat) (ru_base : String) : Option String :=
  if key = "radiant" then List.lookup "radiant" RU_NAME
  else
    match tier with
    | some t => some s!"{ru_base} {t}"
    | none => some (ru_base ++ " None")

/-- The parse-and-convert loop of `compute_average_details`; aborts on the
first error, collecting `(normalized label, scale value)` pairs. -/
def _collect (include_radiant : Bool) : List String → Except RankError (List (String × Int))
  | [] => .ok []
  | raw :: rest =>
      match _parse_rank_token raw with
      | .error e => .error e
      | .ok (key, tier, ru_base) =>
          match _rank_to_number key tier include_radiant with
          | none => .error .internal
          | some val =>
              match _norm_label key tier ru_base with
              | none => .error .internal
              | some norm =>
                  match _collect include_radiant rest with
                  | .error e => .error e
                  | .ok restR => .ok ((norm, val) :: restR)

/-- Aggregator `compute_average_details`. -/
def compute_average_details (ranks : List String)
    (include_radiant : Bool := DEFAULT_INCLUDE_RADIANT) :
    Except RankError (List String × List Int × ℚ × String) :=
  if ranks.length ≠ 5 then .error (.wrongCount ranks.length)
  else
    match _collect include_radiant ranks with
    | .error e => .error e
    | .ok pairs =>
        let norm_ru := pairs.map Prod.fst
        let values := pairs.map Prod.snd
        let avg_value : ℚ := (values.sum : ℚ) / 5
        match _number_to_ru (_round_half_up avg_value) include_radiant with
        | some final_ru => .ok (norm_ru, values, avg_value, final_ru)
        | none => .error .internal

/-- Wrapper `average_rank`: convenience entry point, Radiant included. -/
def average_rank (ranks : List String) : Except RankError String :=
  (compute_average_details ranks DEFAULT_INCLUDE_RADIANT).map (fun r => r.2.2.2)

/-- The scale ceiling determined by the flag (`max_value` in `_number_to_ru`). -/
def ceilingOf (include_radiant : Bool) : Int :=
  if include_radiant then RADIANT_VALUE else MAX_WITHOUT_RADIANT

/-- The key of the ordinary family at zero-based index `i`. -/
def ordKey (i : Fin 8) : String := ORDER.getD i.val ""

/-- Display label of a structured rank, as `compute_average_details` builds its
normalized labels: `f"{ru_base} {tier}"` for ordinary ranks, the bare
`RU_NAME` entry for Radiant. -/
def rank_label (key : String) (tier : Option Nat) : Option String :=
  match List.lookup key RU_NAME, tier with
  | some ru, some t => some s!"{ru} {t}"
  | some ru, none => some ru
  | none, _ => none

/-- Lower-case then fold `ё`→`е`: the per-character normalization of `_clean_token`. -/
def foldc (c : Char) : Char := yoFold (pyLower c)

/-- All whitespace in `s` is plain spaces or tabs (no embedded newlines etc.),
so `str.strip` and the separator removal interact trivially. -/
def onlySimpleWs (s : String) : Prop :=
  ∀ c ∈ s.data, isWs c → (c = ' ' ∨ c = '\t')

/-- Variant relation: `v` is obtained from `a` by re-casing letters, folding `ё`/`Ё`,
and inserting or removing spaces, tabs, hyphens, underscores and periods
(leading, trailing, or internal). -/
def VariantOf (v a : String) : Prop :=
  onlySimpleWs v ∧ onlySimpleWs a ∧
    (v.data.map foldc).filter (fun c => !(isRm c)) =
      (a.data.map foldc).filter (fun c => !(isRm c))

/-- Check that `o` is a defined scale value within `[1, ceiling]`. -/
def valOK (o : Option Int) (b : Bool) : Bool :=
  match o with
  | some v => decide (1 ≤ v ∧ v ≤ ceilingOf b)
  | none => false

instance : DecidablePred onlySimpleWs := by
  intro s; unfold onlySimpleWs; infer_instance

instance (v a : String) : Decidable (VariantOf v a) := by
  unfold VariantOf; infer_instance

/-- C1 (as stated, at the top family with the flag excluding it): forward maps
Radiant to 24, and 24 maps back to the highest ordinary label, not to the
Radiant label, so the round trip does not reproduce the display label. -/
theorem c1_roundtrip_counterexample :
    (_rank_to_number "radiant" none false).bind (fun n => _number_to_ru n false) =
        some "Иммортал 3" ∧
      rank_label "radiant" none = some "Радиант" ∧
      (_rank_to_number "radiant" none false).bind (fun n => _number_to_ru n false) ≠
        rank_label "radiant" none := by
  decide

/-- C1 (amended): for every ordinary structured rank and either flag value, and
for the top family when the flag includes it, forward-then-inverse mapping
reproduces the display label; with the flag excluding the top family, the top
family round-trips to the highest ordinary label `Иммортал 3` instead. -/
theorem c1_roundtrip_amended :
    (∀ (i : Fin 8) (t : Fin 3) (b : Bool),
        (_rank_to_number (ordKey i) (some (t.val + 1)) b).bind (fun n => _number_to_ru n b) =
          rank_label (ordKey i) (some (t.val + 1))) ∧
      ((_rank_to_number "radiant" none true).bind (fun n => _number_to_ru n true) =
        rank_label "radiant" none) ∧
      ((_rank_to_number "radiant" none false).bind (fun n => _number_to_ru n false) =
        some "Иммортал 3") := by
  decide

/-- C2: the forward mapping sends the ordinary family at zero-based index `i`
with sub-tier `t` to `i*3 + t`; in rank order these values are exactly the
strictly increasing contiguous sequence `1..24`, and the top family maps to
the ceiling (`25` with the flag set, `24` without). -/
theorem c2_forward_mapping :
    (∀ (i : Fin 8) (t : Fin 3) (b : Bool),
        _rank_to_number (ordKey i) (some (t.val + 1)) b =
          some ((i.val : Int) * 3 + (t.val + 1))) ∧
      ((List.finRange 8).flatMap (fun i => (List.finRange 3).map (fun t =>
          (_rank_to_number (ordKey i) (some (t.val + 1)) true).getD 0)) =
        (List.range 24).map (fun k => (k : Int) + 1)) ∧
      List.Pairwise (· < ·) ((List.finRange 8).flatMap (fun i => (List.finRange 3).map (fun t =>
          (_rank_to_number (ordKey i) (some (t.val + 1)) true).getD 0))) ∧
      (∀ b : Bool, _rank_to_number "radiant" none b =
        some (if b then 25 else 24)) := by
  refine ⟨by decide, by decide, ?_, by decide⟩
  have h : ((List.finRange 8).flatMap (fun i => (List.finRange 3).map (fun t =>
      (_rank_to_number (ordKey i) (some (t.val + 1)) true).getD 0))) =
      (List.range 24).map (fun k => (k : Int) + 1) := by decide
  rw [h]
  decide

lemma round_half_up_eq_floor (x : ℚ) (h0 : 0 ≤ x) :
    _round_half_up x = Int.floor (x + 1 / 2) := by
  unfold _round_half_up pyTrunc
  rw [if_neg (by linarith)]

/-- C3: on non-negative inputs `_round_half_up` returns a nearest integer
(no integer is strictly closer), and a value exactly at `k + 1/2` rounds up
to `k + 1`, never down to an even neighbor. -/
theorem c3_round_half_up (x : ℚ) (h0 : 0 ≤ x) :
    (∀ m : ℤ, |x - ((_round_half_up x : ℤ) : ℚ)| ≤ |x - (m : ℚ)|) ∧
      ∀ k : ℤ, x = (k : ℚ) + 1 / 2 → _round_half_up x = k + 1 := by
  rw [round_half_up_eq_floor x h0]
  have h1 : ((Int.floor (x + 1 / 2) : ℤ) : ℚ) ≤ x + 1 / 2 := Int.floor_le _
  have h2 : x + 1 / 2 < ((Int.floor (x + 1 / 2) : ℤ) : ℚ) + 1 := Int.lt_floor_add_one _
  constructor
  · intro m
    have habs : |x - ((Int.floor (x + 1 / 2) : ℤ) : ℚ)| ≤ 1 / 2 :=
      abs_le.mpr ⟨by linarith, by linarith⟩
    rcases lt_trichotomy m (Int.floor (x + 1 / 2)) with hm | hm | hm
    · have hm1 : (m : ℚ) + 1 ≤ ((Int.floor (x + 1 / 2) : ℤ) : ℚ) := by
        have : m + 1 ≤ Int.floor (x + 1 / 2) := by omega
        exact_mod_cast this
      have : (1 : ℚ) / 2 ≤ x - (m : ℚ) := by linarith
      calc |x - ((Int.floor (x + 1 / 2) : ℤ) : ℚ)| ≤ 1 / 2 := habs
        _ ≤ x - (m : ℚ) := this
        _ ≤ |x - (m : ℚ)| := le_abs_self _
    · rw [hm]
    · have hm1 : ((Int.floor (x + 1 / 2) : ℤ) : ℚ) + 1 ≤ (m : ℚ) := by
        have : Int.floor (x + 1 / 2) + 1 ≤ m := by omega
        exact_mod_cast this
      have : (1 : ℚ) / 2 ≤ (m : ℚ) - x := by linarith
      calc |x - ((Int.floor (x + 1 / 2) : ℤ) : ℚ)| ≤ 1 / 2 := habs
        _ ≤ (m : ℚ) - x := this
        _ ≤ |(m : ℚ) - x| := le_abs_self _
        _ = |x - (m : ℚ)| := abs_sub_comm _ _
  · intro k hk
    rw [hk, show (k : ℚ) + 1 / 2 + 1 / 2 = ((k + 1 : ℤ) : ℚ) by push_cast; ring]
    exact Int.floor_intCast _

/-- Witness for C3 at `x = 3/2`. -/
theorem c3_round_half_up_witness :
    (0 : ℚ) ≤ 3 / 2 ∧ (3 / 2 : ℚ) = ((1 : ℤ) : ℚ) + 1 / 2 ∧
      _round_half_up (3 / 2 : ℚ) = 1 + 1 :=
  ⟨by norm_num, by norm_num,
    (c3_round_half_up (3 / 2) (by norm_num)).2 1 (by norm_num)⟩

lemma list_lookup_mem {α β : Type} [BEq α] [LawfulBEq α] {l : List (α × β)} {a : α} {b : β}
    (h : List.lookup a l = some b) : (a, b) ∈ l := by
  induction l with
  | nil => simp [List.lookup] at h
  | cons p tl ih =>
    match p with
    | (k, v) =>
      rw [List.lookup] at h
      by_cases hk : a == k
      · rw [hk] at h
        simp only [cond_true, Option.some.injEq] at h
        have ha : a = k := eq_of_beq hk
        subst ha; subst h
        exact List.mem_cons_self _ _
      · rw [Bool.not_eq_true] at hk
        rw [hk] at h
        exact List.mem_cons_of_mem _ (ih h)

lemma tierCore_tier_mem {token : String} {t : Nat} (h : (tierCore token).1 = some t) :
    t = 1 ∨ t = 2 ∨ t = 3 := by
  unfold tierCore at h
  rcases hl : token.data.getLast? with _ | c
  · simp only [hl] at h
    exact Option.noConfusion h
  · simp only [hl] at h
    by_cases hc : c = '1' ∨ c = '2' ∨ c = '3'
    · rw [if_pos hc] at h
      simp only [Option.some.injEq] at h
      subst h
      rcases hc with h | h | h <;> subst h <;> decide
    · rw [if_neg hc] at h; simp at h

/-- Structure of a successful parse: the Russian base name is the `RU_NAME`
entry of the key, the key comes from an alias-table lookup, and the tier is
`none` exactly for Radiant, otherwise a digit in `{1, 2, 3}`. -/
lemma parse_ok_shape {raw k : String} {t : Option Nat} {ru : String}
    (h : _parse_rank_token raw = .ok (k, t, ru)) :
    List.lookup k RU_NAME = some ru ∧
      (∃ core, List.lookup core ALIAS_TO_KEY = some k) ∧
      ((k = "radiant" ∧ t = none) ∨
        (k ≠ "radiant" ∧ ∃ tt, t = some tt ∧ (tt = 1 ∨ tt = 2 ∨ tt = 3))) := by
  unfold _parse_rank_token at h
  rcases ha : List.lookup (tierCore (_clean_token raw)).2 ALIAS_TO_KEY with _ | key
  · simp only [ha] at h
    exact Except.noConfusion h
  · simp only [ha] at h
    rcases hr : List.lookup key RU_NAME with _ | rub
    · simp only [hr] at h
      exact Except.noConfusion h
    · simp only [hr] at h
      by_cases hrad : key ≠ "radiant"
      · rw [if_pos hrad] at h
        rcases htc : (tierCore (_clean_token raw)).1 with _ | tt
        · simp only [htc] at h
          exact Except.noConfusion h
        · simp only [htc] at h
          have htt := tierCore_tier_mem htc
          rw [if_neg (by tauto)] at h
          simp only [Except.ok.injEq, Prod.mk.injEq] at h
          obtain ⟨hk, ht, hru⟩ := h
          subst hk; subst ht; subst hru
          exact ⟨hr, ⟨_, ha⟩, Or.inr ⟨hrad, tt, rfl, htt⟩⟩
      · rw [if_neg hrad] at h
        push_neg at hrad
        simp only [Except.ok.injEq, Prod.mk.injEq] at h
        obtain ⟨hk, ht, hru⟩ := h
        subst hk; subst ht; subst hru
        exact ⟨hr, ⟨_, ha⟩, Or.inl ⟨hrad, rfl⟩⟩

lemma alias_val_bounds :
    (∀ p ∈ ALIAS_TO_KEY, ∀ b : Bool, p.2 = "radiant" ∨
        ∀ tt ∈ ([1, 2, 3] : List Nat), valOK (_rank_to_number p.2 (some tt) b) b) ∧
      ∀ b : Bool, valOK (_rank_to_number "radiant" none b) b := by
  decide

/-- A successfully parsed rank always converts to a defined scale value in
`[1, ceiling]`, under either flag. -/
lemma parse_ok_val {raw k : String} {t : Option Nat} {ru : String} (b : Bool)
    (h : _parse_rank_token raw = .ok (k, t, ru)) :
    ∃ v : Int, _rank_to_number k t b = some v ∧ 1 ≤ v ∧ v ≤ ceilingOf b := by
  obtain ⟨-, ⟨core, hcore⟩, hcases⟩ := parse_ok_shape h
  have hmem : (core, k) ∈ ALIAS_TO_KEY := list_lookup_mem hcore
  rcases hcases with ⟨hk, ht⟩ | ⟨hk, tt, ht, htt⟩
  · subst hk; subst ht
    have := alias_val_bounds.2 b
    unfold valOK at this
    rcases hv : _rank_to_number "radiant" none b with _ | v
    · rw [hv] at this; cases this
    · rw [hv] at this
      exact ⟨v, rfl, of_decide_eq_true this⟩
  · subst ht
    have := (alias_val_bounds.1 (core, k) hmem b).resolve_left hk
    have hb := this tt (by rcases htt with h | h | h <;> subst h <;> decide)
    unfold valOK at hb
    rcases hv : _rank_to_number k (some tt) b with _ | v
    · rw [hv] at hb; cases hb
    · rw [hv] at hb
      exact ⟨v, rfl, of_decide_eq_true hb⟩

/-- C4: every token that parses to the Radiant family carries no sub-tier
(even when a trailing digit was present in the token), and its forward scale
value is `25` with the flag set and `24` without. -/
theorem c4_radiant_no_subtier (raw key : String) (tier : Option Nat) (ru : String)
    (h : _parse_rank_token raw = .ok (key, tier, ru)) (hk : key = "radiant") :
    tier = none ∧ _rank_to_number key tier true = some 25 ∧
      _rank_to_number key tier false = some 24 := by
  obtain ⟨-, -, hc⟩ := parse_ok_shape h
  rcases hc with ⟨-, ht⟩ | ⟨hk2, -⟩
  · subst ht; subst hk; exact ⟨rfl, by decide, by decide⟩
  · exact absurd hk hk2

/-- Witness for C4 at the token `"Radiant2"`, which carries a trailing digit. -/
theorem c4_radiant_no_subtier_witness :
    _parse_rank_token "Radiant2" = .ok ("radiant", none, "Радиант") ∧
      (none : Option Nat) = none ∧
      _rank_to_number "radiant" (none : Option Nat) true = some 25 ∧
      _rank_to_number "radiant" (none : Option Nat) false = some 24 :=
  ⟨rfl, c4_radiant_no_subtier "Radiant2" "radiant" none "Радиант" rfl rfl⟩

lemma parse_no_wrongCount (raw : String) (n : Nat) :
    _parse_rank_token raw ≠ .error (.wrongCount n) := by
  unfold _parse_rank_token
  rcases ha : List.lookup (tierCore (_clean_token raw)).2 ALIAS_TO_KEY with _ | key
  · simp [ha]
  · simp only [ha]
    rcases hr : List.lookup key RU_NAME with _ | rub
    · simp [hr]
    · simp only [hr]
      by_cases hrad : key ≠ "radiant"
      · rw [if_pos hrad]
        rcases htc : (tierCore (_clean_token raw)).1 with _ | tt
        · simp
        · by_cases h3 : ¬(tt = 1 ∨ tt = 2 ∨ tt = 3)
          · simp [h3]
          · simp [h3]
      · rw [if_neg hrad]; simp

lemma collect_nil (b : Bool) : _collect b [] = .ok [] := rfl

lemma collect_cons (b : Bool) (raw : String) (rest : List String) :
    _collect b (raw :: rest) =
      match _parse_rank_token raw with
      | .error e => .error e
      | .ok (key, tier, ru_base) =>
          match _rank_to_number key tier b with
          | none => .error .internal
          | some val =>
              match _norm_label key tier ru_base with
              | none => .error .internal
              | some norm =>
                  match _collect b rest with
                  | .error e => .error e
                  | .ok restR => .ok ((norm, val) :: restR) := rfl

/-- Prepending a successfully parsed token turns `_collect` into a `map`. -/
lemma collect_cons_ok {b : Bool} {raw k : String} {t : Option Nat} {ru : String}
    (h : _parse_rank_token raw = .ok (k, t, ru)) :
    ∃ nv : String × Int,
      (1 ≤ nv.2 ∧ nv.2 ≤ ceilingOf b) ∧
      _rank_to_number k t b = some nv.2 ∧
      _norm_label k t ru = some nv.1 ∧
      ∀ rest, _collect b (raw :: rest) = (_collect b rest).map (fun l => nv :: l) := by
  obtain ⟨v, hv, hv1, hv2⟩ := parse_ok_val b h
  obtain ⟨-, -, hc⟩ := parse_ok_shape h
  have hnorm : ∃ norm, _norm_label k t ru = some norm := by
    rcases hc with ⟨hk, ht⟩ | ⟨hk, tt, ht, -⟩
    · subst hk; subst ht; exact ⟨"Радиант", rfl⟩
    · subst ht
      refine ⟨s!"{ru} {tt}", ?_⟩
      unfold _norm_label
      rw [if_neg hk]
  obtain ⟨norm, hnorm⟩ := hnorm
  refine ⟨(norm, v), ⟨hv1, hv2⟩, hv, hnorm, fun rest => ?_⟩
  rw [collect_cons]
  simp only [h, hv, hnorm]
  rcases hrest : _collect b rest with e | l <;> rfl

/-- The loop surfaces the error of the first failing token. -/
lemma collect_error_first (b : Bool) :
    ∀ (pre : List String) (raw : String) (rest : List String) (e : RankError),
      (∀ x ∈ pre, ∃ p, _parse_rank_token x = .ok p) →
      _parse_rank_token raw = .error e →
      _collect b (pre ++ raw :: rest) = .error e := by
  intro pre
  induction pre with
  | nil =>
      intro raw rest e _ hraw
      rw [List.nil_append, collect_cons]
      simp only [hraw]
  | cons x pre ih =>
      intro raw rest e hpre hraw
      obtain ⟨⟨k, t, ru⟩, hp⟩ := hpre x (List.mem_cons_self _ _)
      obtain ⟨nv, -, -, -, hnv⟩ := collect_cons_ok (b := b) hp
      rw [List.cons_append, hnv (pre ++ raw :: rest),
        ih raw rest e (fun y hy => hpre y (List.mem_cons_of_mem _ hy)) hraw]
      rfl

lemma collect_no_wrongCount {b : Bool} :
    ∀ {l : List String} {n : Nat}, _collect b l ≠ .error (.wrongCount n) := by
  intro l
  induction l with
  | nil => intro n h; rw [collect_nil] at h; cases h
  | cons raw rest ih =>
      intro n h
      rw [collect_cons] at h
      rcases hp : _parse_rank_token raw with e | p
      · simp only [hp] at h
        injection h with h2
        exact parse_no_wrongCount raw n (by rw [hp, h2])
      · obtain ⟨k, t, ru⟩ := p
        simp only [hp] at h
        rcases hv : _rank_to_number k t b with _ | v
        · simp only [hv] at h; injection h with h2; cases h2
        · simp only [hv] at h
          rcases hn : _norm_label k t ru with _ | norm
          · simp only [hn] at h; injection h with h2; cases h2
          · simp only [hn] at h
            rcases hrest : _collect b rest with e | restR
            · simp only [hrest] at h
              injection h with h2
              exact ih (n := n) (by rw [hrest, h2])
            · simp only [hrest] at h; cases h

/-- Per-element facts about a successful `_collect` run. -/
lemma collect_ok_facts {b : Bool} :
    ∀ {l : List String} {pairs : List (String × Int)},
      _collect b l = .ok pairs →
      pairs.length = l.length ∧ ∀ pr ∈ pairs, 1 ≤ pr.2 ∧ pr.2 ≤ ceilingOf b := by
  intro l
  induction l with
  | nil =>
      intro pairs h
      rw [collect_nil] at h
      simp only [Except.ok.injEq] at h
      subst h
      simp
  | cons raw rest ih =>
      intro pairs h
      rw [collect_cons] at h
      rcases hp : _parse_rank_token raw with e | p
      · simp only [hp] at h; exact Except.noConfusion h
      · obtain ⟨k, t, ru⟩ := p
        simp only [hp] at h
        obtain ⟨v, hv, hv1, hv2⟩ := parse_ok_val b hp
        simp only [hv] at h
        rcases hn : _norm_label k t ru with _ | norm
        · simp only [hn] at h; exact Except.noConfusion h
        · simp only [hn] at h
          rcases hrest : _collect b rest with e | restR
          · simp only [hrest] at h; exact Except.noConfusion h
          · simp only [hrest] at h
            simp only [Except.ok.injEq] at h
            subst h
            obtain ⟨ihlen, ihmem⟩ := ih hrest
            refine ⟨by simp [ihlen], ?_⟩
            intro pr hpr
            rcases List.mem_cons.mp hpr with h | h
            · subst h; exact ⟨hv1, hv2⟩
            · exact ihmem pr h

/-- C6: `compute_average_details` fails with the wrong-count error exactly when
the input length is not 5 (whatever the tokens are, parsed or not), and on a
5-element input the error of the first failing token is surfaced for the whole
computation — no partial result exists. -/
theorem c6_error_flow :
    (∀ (ranks : List String) (b : Bool) (n : Nat),
        compute_average_details ranks b = .error (.wrongCount n) ↔
          (ranks.length ≠ 5 ∧ n = ranks.length)) ∧
      (∀ (a0 a1 a2 a3 a4 : String) (b : Bool) (i : Fin 5) (e : RankError),
        _parse_rank_token ([a0, a1, a2, a3, a4].get i) = .error e →
        (∀ j : Fin 5, j < i → ∃ p, _parse_rank_token ([a0, a1, a2, a3, a4].get j) = .ok p) →
        compute_average_details [a0, a1, a2, a3, a4] b = .error e) := by
  constructor
  · intro ranks b n
    constructor
    · intro h
      by_cases h5 : ranks.length ≠ 5
      · unfold compute_average_details at h
        rw [if_pos h5] at h
        injection h with h2
        injection h2 with h3
        exact ⟨h5, h3.symm⟩
      · exfalso
        unfold compute_average_details at h
        rw [if_neg h5] at h
        rcases hc : _collect b ranks with e | pairs
        · simp only [hc] at h
          injection h with h2
          exact collect_no_wrongCount (hc.trans (by rw [h2]))
        · simp only [hc] at h
          rcases hn : _number_to_ru (_round_half_up (((pairs.map Prod.snd).sum : ℚ) / 5)) b
            with _ | ru
          · simp only [hn] at h
            injection h with h2
            cases h2
          · simp only [hn] at h
            exact Except.noConfusion h
    · rintro ⟨h5, hn⟩
      subst hn
      unfold compute_average_details
      rw [if_pos h5]
  · intro a0 a1 a2 a3 a4 b i e hi hj
    have hcol : _collect b [a0, a1, a2, a3, a4] = .error e := by
      fin_cases i
      · exact collect_error_first b [] a0 [a1, a2, a3, a4] e (by simp) hi
      · refine collect_error_first b [a0] a1 [a2, a3, a4] e ?_ hi
        intro x hx
        fin_cases hx
        exact hj ⟨0, by omega⟩ (by decide)
      · refine collect_error_first b [a0, a1] a2 [a3, a4] e ?_ hi
        intro x hx
        fin_cases hx
        · exact hj ⟨0, by omega⟩ (by decide)
        · exact hj ⟨1, by omega⟩ (by decide)
      · refine collect_error_first b [a0, a1, a2] a3 [a4] e ?_ hi
        intro x hx
        fin_cases hx
        · exact hj ⟨0, by omega⟩ (by decide)
        · exact hj ⟨1, by omega⟩ (by decide)
        · exact hj ⟨2, by omega⟩ (by decide)
      · refine collect_error_first b [a0, a1, a2, a3] a4 [] e ?_ hi
        intro x hx
        fin_cases hx
        · exact hj ⟨0, by omega⟩ (by decide)
        · exact hj ⟨1, by omega⟩ (by decide)
        · exact hj ⟨2, by omega⟩ (by decide)
        · exact hj ⟨3, by omega⟩ (by decide)
    unfold compute_average_details
    rw [if_neg (by simp)]
    simp only [hcol]

/-- Witness for C6: a one-element input fails with the wrong-count error, and
a 5-element input whose second token is unknown surfaces exactly that token's
error. -/
theorem c6_error_flow_witness :
    compute_average_details ["д1"] true = .error (.wrongCount 1) ∧
      compute_average_details ["д1", "galaxy1", "б1", "с1", "г1"] true =
        .error (.unrecognized "galaxy1") := by
  constructor
  · exact (c6_error_flow.1 ["д1"] true 1).mpr ⟨by decide, rfl⟩
  · refine c6_error_flow.2 "д1" "galaxy1" "б1" "с1" "г1" true ⟨1, by omega⟩
      (.unrecognized "galaxy1") rfl ?_
    intro j hj
    fin_cases j
    · exact ⟨("diamond", some 1, "Алмаз"), rfl⟩
    · exact absurd hj (by decide)
    · exact absurd hj (by decide)
    · exact absurd hj (by decide)
    · exact absurd hj (by decide)

/-- C7: the parser fails with the unrecognized-rank error (carrying the raw
text) exactly when the normalized core has no alias entry; with the
missing-sub-tier error (naming the matched family) when an ordinary family is
matched without an extracted digit; and the invalid-sub-tier error is never
raised for any input, because extraction only yields digits in `{1, 2, 3}`. -/
theorem c7_parse_errors (raw : String) :
    (List.lookup (tierCore (_clean_token raw)).2 ALIAS_TO_KEY = none →
        _parse_rank_token raw = .error (.unrecognized raw)) ∧
      (∀ key ru, List.lookup (tierCore (_clean_token raw)).2 ALIAS_TO_KEY = some key →
        key ≠ "radiant" → List.lookup key RU_NAME = some ru →
        (tierCore (_clean_token raw)).1 = none →
        _parse_rank_token raw = .error (.missingSubTier ru)) ∧
      ∀ ru t, _parse_rank_token raw ≠ .error (.invalidSubTier ru t) := by
  refine ⟨?_, ?_, ?_⟩
  · intro h
    unfold _parse_rank_token
    simp only [h]
  · intro key ru hk hrad hru ht
    unfold _parse_rank_token
    simp only [hk, hru, ht]
    rw [if_pos hrad]
  · intro ru t h
    unfold _parse_rank_token at h
    rcases ha : List.lookup (tierCore (_clean_token raw)).2 ALIAS_TO_KEY with _ | key
    · simp only [ha] at h
      injection h with h2
      cases h2
    · simp only [ha] at h
      rcases hr : List.lookup key RU_NAME with _ | rub
      · simp only [hr] at h
        injection h with h2
        cases h2
      · simp only [hr] at h
        by_cases hrad : key ≠ "radiant"
        · rw [if_pos hrad] at h
          rcases htc : (tierCore (_clean_token raw)).1 with _ | tt
          · simp only [htc] at h
            injection h with h2
            cases h2
          · simp only [htc] at h
            have := tierCore_tier_mem htc
            rw [if_neg (by tauto)] at h
            exact Except.noConfusion h
        · rw [if_neg hrad] at h
          exact Except.noConfusion h

/-- Witness for C7: `"galaxy1"` is unrecognized, `"diamond"` lacks a sub-tier,
and `"д4"` (trailing digit outside `{1, 2, 3}`) does not hit the defensive
invalid-sub-tier error. -/
theorem c7_parse_errors_witness :
    List.lookup (tierCore (_clean_token "galaxy1")).2 ALIAS_TO_KEY = none ∧
      _parse_rank_token "galaxy1" = .error (.unrecognized "galaxy1") ∧
      List.lookup (tierCore (_clean_token "diamond")).2 ALIAS_TO_KEY = some "diamond" ∧
      (tierCore (_clean_token "diamond")).1 = none ∧
      _parse_rank_token "diamond" = .error (.missingSubTier "Алмаз") ∧
      _parse_rank_token "д4" ≠ .error (.invalidSubTier "Алмаз" 4) := by
  refine ⟨rfl, (c7_parse_errors "galaxy1").1 rfl, rfl, rfl, ?_, ?_⟩
  · exact (c7_parse_errors "diamond").2.1 "diamond" "Алмаз" rfl (by decide) rfl rfl
  · exact (c7_parse_errors "д4").2.2 "Алмаз" 4

lemma nru_core_total (b : Bool) (m : Int) (h1 : 1 ≤ m) (h2 : m ≤ ceilingOf b) :
    (_nru_core m b).isSome = true := by
  cases b
  · have h2a : m ≤ 24 := by simpa [ceilingOf, MAX_WITHOUT_RADIANT] using h2
    clear h2
    interval_cases m <;> decide
  · have h2a : m ≤ 25 := by simpa [ceilingOf, RADIANT_VALUE] using h2
    clear h2
    interval_cases m <;> decide

lemma nru_clamp_bounds (n : Int) (b : Bool) :
    1 ≤ _nru_clamp n b ∧ _nru_clamp n b ≤ ceilingOf b := by
  simp only [_nru_clamp, ceilingOf, RADIANT_VALUE, MAX_WITHOUT_RADIANT]
  cases b <;> split_ifs <;> omega

/-- C9: on every integer input, under either flag, the inverse mapping is
defined (it never fails): inputs below `1` behave exactly as `1` and inputs
above the ceiling behave exactly as the ceiling — a silent clamp. -/
theorem c9_inverse_clamp (n : Int) (b : Bool) :
    (_number_to_ru n b).isSome = true ∧
      (n < 1 → _number_to_ru n b = _number_to_ru 1 b) ∧
      (ceilingOf b < n → _number_to_ru n b = _number_to_ru (ceilingOf b) b) := by
  refine ⟨?_, ?_, ?_⟩
  · unfold _number_to_ru
    exact nru_core_total b _ (nru_clamp_bounds n b).1 (nru_clamp_bounds n b).2
  · intro h
    unfold _number_to_ru
    have hc : _nru_clamp n b = _nru_clamp 1 b := by
      simp only [_nru_clamp, RADIANT_VALUE, MAX_WITHOUT_RADIANT]
      cases b <;> split_ifs <;> omega
    rw [hc]
  · intro h
    unfold _number_to_ru
    have hc : _nru_clamp n b = _nru_clamp (ceilingOf b) b := by
      simp only [ceilingOf, RADIANT_VALUE, MAX_WITHOUT_RADIANT] at h ⊢
      simp only [_nru_clamp, RADIANT_VALUE, MAX_WITHOUT_RADIANT]
      cases b <;> simp only [Bool.false_eq_true, if_true, if_false] at h ⊢ <;>
        split_ifs <;> omega
    rw [hc]

/-- Witness for C9 at `n = -3` (below) and `n = 30` (above the ceiling). -/
theorem c9_inverse_clamp_witness :
    ((-3 : Int) < 1) ∧ _number_to_ru (-3) true = _number_to_ru 1 true ∧
      (ceilingOf true < 30) ∧ _number_to_ru 30 true = _number_to_ru (ceilingOf true) true ∧
      (_number_to_ru (-3) true).isSome = true :=
  ⟨by norm_num, (c9_inverse_clamp (-3) true).2.1 (by norm_num), by decide,
    (c9_inverse_clamp 30 true).2.2 (by decide), (c9_inverse_clamp (-3) true).1⟩

lemma round_half_up_eval (x : ℚ) (n : Int) (h0 : 0 ≤ x)
    (h1 : (n : ℚ) ≤ x + 1 / 2) (h2 : x + 1 / 2 < n + 1) :
    _round_half_up x = n := by
  rw [round_half_up_eq_floor x h0]
  exact Int.floor_eq_iff.mpr ⟨h1, h2⟩

/-- Evaluating `compute_average_details` on a successful 5-token run. -/
lemma compute_ok_eq (ranks : List String) (b : Bool) (pairs : List (String × Int))
    (ru : String) (h5 : ranks.length = 5) (hc : _collect b ranks = .ok pairs)
    (hru : _number_to_ru (_round_half_up (((pairs.map Prod.snd).sum : ℚ) / 5)) b = some ru) :
    compute_average_details ranks b =
      .ok (pairs.map Prod.fst, pairs.map Prod.snd, ((pairs.map Prod.snd).sum : ℚ) / 5, ru) := by
  unfold compute_average_details
  rw [if_neg (by omega)]
  simp only [hc, hru]

lemma average_rank_eq (ranks : List String) (pairs : List (String × Int)) (n : Int)
    (ru : String) (h5 : ranks.length = 5) (hc : _collect true ranks = .ok pairs)
    (hn : _round_half_up (((pairs.map Prod.snd).sum : ℚ) / 5) = n)
    (hru : _number_to_ru n true = some ru) :
    average_rank ranks = .ok ru := by
  unfold average_rank
  rw [show DEFAULT_INCLUDE_RADIANT = true from rfl,
    compute_ok_eq ranks true pairs ru h5 hc (by rw [hn]; exact hru)]
  rfl

/-- C5: the three spec acceptance scenarios for `average_rank` (top family
included by default). -/
theorem c5_acceptance :
    average_rank ["д1", "аск1", "б1", "с1", "г1"] = .ok "Золото 2" ∧
      average_rank ["diamond 2", "ascendant3", "иммо1", "gold3", "platinum1"] = .ok "Алмаз 2" ∧
      average_rank ["Radiant", "Immortal 3", "Immortal 3", "Ascendant 3", "Diamond 3"] =
        .ok "Иммортал 1" := by
  refine ⟨?_, ?_, ?_⟩
  · refine average_rank_eq _
      [("Алмаз 1", 16), ("Асцендант 1", 19), ("Бронза 1", 4), ("Серебро 1", 7), ("Золото 1", 10)]
      11 "Золото 2" rfl rfl ?_ rfl
    exact round_half_up_eval _ 11 (by norm_num) (by norm_num) (by norm_num)
  · refine average_rank_eq _
      [("Алмаз 2", 17), ("Асцендант 3", 21), ("Иммортал 1", 22), ("Золото 3", 12),
        ("Платина 1", 13)]
      17 "Алмаз 2" rfl rfl ?_ rfl
    exact round_half_up_eval _ 17 (by norm_num) (by norm_num) (by norm_num)
  · refine average_rank_eq _
      [("Радиант", 25), ("Иммортал 3", 24), ("Иммортал 3", 24), ("Асцендант 3", 21),
        ("Алмаз 3", 18)]
      22 "Иммортал 1" rfl rfl ?_ rfl
    exact round_half_up_eval _ 22 (by norm_num) (by norm_num) (by norm_num)

lemma sum_lower (lo : Int) : ∀ l : List Int, (∀ v ∈ l, lo ≤ v) →
    (l.length : Int) * lo ≤ l.sum := by
  intro l
  induction l with
  | nil => simp
  | cons x xs ih =>
      intro h
      have hx := h x (List.mem_cons_self _ _)
      have ihx := ih (fun v hv => h v (List.mem_cons_of_mem _ hv))
      simp only [List.sum_cons, List.length_cons]
      have hr : ((xs.length + 1 : Nat) : Int) * lo = (xs.length : Int) * lo + lo := by
        push_cast; ring
      rw [hr]
      linarith

lemma sum_upper (hi : Int) : ∀ l : List Int, (∀ v ∈ l, v ≤ hi) →
    l.sum ≤ (l.length : Int) * hi := by
  intro l
  induction l with
  | nil => simp
  | cons x xs ih =>
      intro h
      have hx := h x (List.mem_cons_self _ _)
      have ihx := ih (fun v hv => h v (List.mem_cons_of_mem _ hv))
      simp only [List.sum_cons, List.length_cons]
      have hr : ((xs.length + 1 : Nat) : Int) * hi = (xs.length : Int) * hi + hi := by
        push_cast; ring
      rw [hr]
      linarith

/-- C10: on every successful run, each scale value lies in `[1, ceiling]`, the
rounded mean lies in `[1, ceiling]`, and consequently the clamp in the inverse
mapping is the identity on it (neither clamp branch fires). -/
theorem c10_range_safety (ranks : List String) (b : Bool) (norm : List String)
    (values : List Int) (avg : ℚ) (final : String)
    (h : compute_average_details ranks b = .ok (norm, values, avg, final)) :
    (∀ v ∈ values, 1 ≤ v ∧ v ≤ ceilingOf b) ∧
      1 ≤ _round_half_up avg ∧ _round_half_up avg ≤ ceilingOf b ∧
      _nru_clamp (_round_half_up avg) b = _round_half_up avg := by
  unfold compute_average_details at h
  by_cases h5 : ranks.length ≠ 5
  · rw [if_pos h5] at h
    exact Except.noConfusion h
  · rw [if_neg h5] at h
    push_neg at h5
    rcases hc : _collect b ranks with e | pairs
    · simp only [hc] at h
      exact Except.noConfusion h
    · simp only [hc] at h
      rcases hn : _number_to_ru (_round_half_up (((pairs.map Prod.snd).sum : ℚ) / 5)) b
        with _ | ru
      · simp only [hn] at h
        exact Except.noConfusion h
      · simp only [hn] at h
        simp only [Except.ok.injEq, Prod.mk.injEq] at h
        obtain ⟨-, hval, havg, -⟩ := h
        subst hval
        subst havg
        obtain ⟨hlen, hmem⟩ := collect_ok_facts hc
        have hvals : ∀ v ∈ pairs.map Prod.snd, 1 ≤ v ∧ v ≤ ceilingOf b := by
          intro v hv
          obtain ⟨pr, hpr, hpv⟩ := List.mem_map.mp hv
          exact hpv ▸ hmem pr hpr
        refine ⟨hvals, ?_⟩
        have hlen5 : ((pairs.map Prod.snd).length : Int) = 5 := by
          rw [List.length_map, hlen, h5]; rfl
        have hsum1 : (5 : Int) ≤ (pairs.map Prod.snd).sum := by
          have := sum_lower 1 (pairs.map Prod.snd) (fun v hv => (hvals v hv).1)
          rw [hlen5] at this
          linarith
        have hsum2 : (pairs.map Prod.snd).sum ≤ 5 * ceilingOf b := by
          have := sum_upper (ceilingOf b) (pairs.map Prod.snd) (fun v hv => (hvals v hv).2)
          rw [hlen5] at this
          linarith
        have hcas : (1 : Int) ≤ ceilingOf b := by
          unfold ceilingOf RADIANT_VALUE MAX_WITHOUT_RADIANT
          cases b <;> norm_num
        have havg1 : (1 : ℚ) ≤ ((pairs.map Prod.snd).sum : ℚ) / 5 := by
          rw [le_div_iff₀ (by norm_num : (0 : ℚ) < 5)]
          have : ((5 : Int) : ℚ) ≤ (((pairs.map Prod.snd).sum : Int) : ℚ) := by
            exact_mod_cast hsum1
          push_cast at this ⊢
          linarith
        have havg2 : ((pairs.map Prod.snd).sum : ℚ) / 5 ≤ ((ceilingOf b : Int) : ℚ) := by
          rw [div_le_iff₀ (by norm_num : (0 : ℚ) < 5)]
          have : (((pairs.map Prod.snd).sum : Int) : ℚ) ≤ (((5 * ceilingOf b : Int)) : ℚ) := by
            exact_mod_cast hsum2
          push_cast at this ⊢
          linarith
        have hfl : _round_half_up (((pairs.map Prod.snd).sum : ℚ) / 5) =
            Int.floor ((((pairs.map Prod.snd).sum : ℚ) / 5) + 1 / 2) :=
          round_half_up_eq_floor _ (by linarith)
        have hr1 : 1 ≤ _round_half_up (((pairs.map Prod.snd).sum : ℚ) / 5) := by
          rw [hfl]
          refine Int.le_floor.mpr ?_
          rw [Int.cast_one]
          linarith
        have hr2 : _round_half_up (((pairs.map Prod.snd).sum : ℚ) / 5) ≤ ceilingOf b := by
          rw [hfl]
          have hlt : Int.floor ((((pairs.map Prod.snd).sum : ℚ) / 5) + 1 / 2) <
              ceilingOf b + 1 := by
            refine Int.floor_lt.mpr ?_
            rw [Int.cast_add, Int.cast_one]
            linarith
          omega
        refine ⟨hr1, hr2, ?_⟩
        simp only [_nru_clamp, RADIANT_VALUE, MAX_WITHOUT_RADIANT]
        unfold ceilingOf RADIANT_VALUE MAX_WITHOUT_RADIANT at hr2
        cases b <;> simp only [Bool.false_eq_true, if_true, if_false] at hr2 ⊢ <;>
          split_ifs <;> omega

/-- Witness for C10 on a concrete successful run. -/
theorem c10_range_safety_witness :
    compute_average_details ["д1", "аск1", "б1", "с1", "г1"] true =
        .ok (["Алмаз 1", "Асцендант 1", "Бронза 1", "Серебро 1", "Золото 1"],
          [16, 19, 4, 7, 10], ((56 : Int) : ℚ) / 5, "Золото 2") ∧
      (∀ v ∈ ([16, 19, 4, 7, 10] : List Int), 1 ≤ v ∧ v ≤ ceilingOf true) ∧
      1 ≤ _round_half_up (((56 : Int) : ℚ) / 5) ∧
      _round_half_up (((56 : Int) : ℚ) / 5) ≤ ceilingOf true ∧
      _nru_clamp (_round_half_up (((56 : Int) : ℚ) / 5)) true =
        _round_half_up (((56 : Int) : ℚ) / 5) := by
  have hn : _round_half_up (((56 : Int) : ℚ) / 5) = 11 :=
    round_half_up_eval _ 11 (by norm_num) (by norm_num) (by norm_num)
  have h : compute_average_details ["д1", "аск1", "б1", "с1", "г1"] true =
      .ok (["Алмаз 1", "Асцендант 1", "Бронза 1", "Серебро 1", "Золото 1"],
        [16, 19, 4, 7, 10], ((56 : Int) : ℚ) / 5, "Золото 2") := by
    exact compute_ok_eq _ true
      [("Алмаз 1", 16), ("Асцендант 1", 19), ("Бронза 1", 4), ("Серебро 1", 7), ("Золото 1", 10)]
      "Золото 2" rfl rfl (by rw [show ((([("Алмаз 1", (16 : Int)), ("Асцендант 1", 19),
        ("Бронза 1", 4), ("Серебро 1", 7), ("Золото 1", 10)].map Prod.snd).sum : ℚ)) =
        ((56 : Int) : ℚ) from rfl, hn]; rfl)
  exact ⟨h, c10_range_safety _ _ _ _ _ _ h⟩

lemma lower_map_not_rm : ∀ p ∈ LOWER_MAP, isRm p.1 = false ∧ isRm (yoFold p.2) = false := by
  decide

lemma isRm_foldc (c : Char) : isRm (foldc c) = isRm c := by
  unfold foldc pyLower
  rcases hl : List.lookup c LOWER_MAP with _ | d
  · simp only [Option.getD_none]
    unfold yoFold
    by_cases hc : c = 'ё'
    · subst hc; decide
    · rw [if_neg hc]
  · simp only [Option.getD_some]
    obtain ⟨h1, h2⟩ := lower_map_not_rm (c, d) (list_lookup_mem hl)
    rw [h2, h1]

lemma filter_dropWhile {p q : Char → Bool} :
    ∀ l : List Char, (∀ c ∈ l, q c = true → p c = false) →
      (l.dropWhile q).filter p = l.filter p := by
  intro l
  induction l with
  | nil => intro _; rfl
  | cons c tl ih =>
      intro h
      by_cases hq : q c = true
      · rw [List.dropWhile_cons, if_pos hq, List.filter_cons,
          if_neg (by rw [h c (List.mem_cons_self _ _) hq]; exact Bool.false_ne_true),
          ih (fun x hx hqx => h x (List.mem_cons_of_mem _ hx) hqx)]
      · rw [List.dropWhile_cons, if_neg hq]

lemma stripChars_filter (l : List Char)
    (hws : ∀ c ∈ l, isWs c = true → (c = ' ' ∨ c = '\t')) :
    (stripChars l).filter (fun c => !(isRm c)) = l.filter (fun c => !(isRm c)) := by
  have hcond : ∀ c ∈ l, isWs c = true → (fun c => !(isRm c)) c = false := by
    intro c hc hwsc
    rcases hws c hc hwsc with h | h <;> subst h <;> decide
  have hsub1 : ∀ c ∈ l.dropWhile isWs, c ∈ l := fun c hc =>
    (List.dropWhile_sublist isWs).subset hc
  have hcond2 : ∀ c ∈ (l.dropWhile isWs).reverse, isWs c = true →
      (fun c => !(isRm c)) c = false := by
    intro c hc hwsc
    exact hcond c (hsub1 c (List.mem_reverse.mp hc)) hwsc
  unfold stripChars
  rw [List.filter_reverse, filter_dropWhile _ hcond2, List.filter_reverse,
    List.reverse_reverse, filter_dropWhile _ hcond]

lemma filter_map_foldc (l : List Char) :
    (l.map foldc).filter (fun c => !(isRm c)) =
      (l.filter (fun c => !(isRm c))).map foldc := by
  rw [List.filter_map]
  have : ((fun c => !(isRm c)) ∘ foldc) = fun c => !(isRm c) := by
    funext c
    simp only [Function.comp_apply, isRm_foldc]
  rw [this]

/-- Under the simple-whitespace condition, `_clean_token` is exactly
"fold case and ё, drop separators". -/
lemma clean_eq_of_simple (s : String) (h : onlySimpleWs s) :
    _clean_token s = String.mk ((s.data.map foldc).filter (fun c => !(isRm c))) := by
  unfold _clean_token
  rw [List.map_map]
  have hfc : (yoFold ∘ pyLower) = foldc := rfl
  rw [hfc, filter_map_foldc, stripChars_filter s.data h, ← filter_map_foldc]

lemma variant_clean {v a : String} (h : VariantOf v a) :
    _clean_token v = _clean_token a := by
  obtain ⟨hv, ha, heq⟩ := h
  rw [clean_eq_of_simple v hv, clean_eq_of_simple a ha, heq]

/-- C8: a token obtained from another by re-casing letters, folding `ё`,
adding surrounding space/tab whitespace, or inserting/removing
spaces/hyphens/underscores/periods parses to exactly the same structured rank;
in particular any such variant of a registered alias (plus sub-tier digit)
parses like the plain alias. -/
theorem c8_alias_insensitive (a v : String) (r : String × Option Nat × String)
    (hvar : VariantOf v a) (hok : _parse_rank_token a = .ok r) :
    _parse_rank_token v = .ok r := by
  have h := variant_clean hvar
  unfold _parse_rank_token at hok ⊢
  rw [h]
  rcases hl : List.lookup (tierCore (_clean_token a)).2 ALIAS_TO_KEY with _ | key
  · simp only [hl] at hok
    exact Except.noConfusion hok
  · simp only [hl] at hok ⊢
    exact hok

/-- Witness for C8: a heavily separated, re-cased variant of the alias-based
token `"diamond2"` parses to the same structured rank. -/
theorem c8_alias_insensitive_witness :
    VariantOf " D-i.a_m o.n D 2" "diamond2" ∧
      _parse_rank_token "diamond2" = .ok ("diamond", some 2, "Алмаз") ∧
      _parse_rank_token " D-i.a_m o.n D 2" = .ok ("diamond", some 2, "Алмаз") :=
  ⟨by decide, rfl,
    c8_alias_insensitive "diamond2" " D-i.a_m o.n D 2" ("diamond", some 2, "Алмаз")
      (by decide) rfl⟩

end Ranks
